import Mathlib

/-!
Shallow embedding of the Virtual-TA retrieval pipeline
(`chunk_content.py`, `embed.py`, `faiss_index.py`, `retriever.py`,
`main.py`) together with theorems settling the frozen claims about it.

Machine floats are modelled as rationals (`ℚ`); the remote embedding and
chat services are modelled as oracle functions passed in as parameters;
Python exceptions are modelled with `Except`/`Option`; JSON objects are
modelled with `Option` fields (`none` = key absent or `null`), Python
string-truthiness being the test against `none` and the empty string.
The langchain `RecursiveCharacterTextSplitter` is an external
collaborator passed in as `split : String → List String`, exactly as
`text_splitter` is passed into the chunking functions in the source.

The file is laid out as the data model and operations first, then the
supporting lemmas and the claim theorems.
-/

/-- The decimal digit list of `n`, i.e. the data of `Nat.repr n`. -/
def digitsOf (n : Nat) : List Char := Nat.toDigits 10 n

/-- Decimal parser used only to invert `digitsOf`. -/
def parseDigits (l : List Char) : Nat :=
  l.foldl (fun a c => 10 * a + (c.toNat - 48)) 0

structure ChunkMeta where
  source_url : Option String
  source_title : Option String
  chunk_id : String
deriving DecidableEq

structure Chunk where
  page_content : String
  metadata : ChunkMeta
deriving DecidableEq

structure CourseItem where
  id : Option String
  url : Option String
  title : Option String
  content : Option String
deriving DecidableEq

structure DiscourseAnswer where
  url : Option String
  text : Option String
deriving DecidableEq

structure DiscourseThread where
  url : Option String
  question : Option String
  answers : List DiscourseAnswer
deriving DecidableEq

/-- Indexed map, mirroring Python `for i, x in enumerate(l)` starting the
counter at `n`. -/
def mapIdxFrom (f : Nat → α → β) : Nat → List α → List β
  | _, [] => []
  | n, a :: l => f n a :: mapIdxFrom f (n + 1) l

/-- Indexed effectful map over `Except`, for enumeration loops whose body
can raise. -/
def mapIdxFromM (f : Nat → α → Except ε β) : Nat → List α → Except ε (List β)
  | _, [] => .ok []
  | n, a :: l => do
    let b ← f n a
    let bs ← mapIdxFromM f (n + 1) l
    .ok (b :: bs)

/-- Python `item.get('id', 'course')` (absent key falls back to the
literal `"course"`). -/
def courseDocId (item : CourseItem) : String := item.id.getD "course"

/-- Chunks contributed by one course document: the body of the `for item
in course_data` loop of `chunk_course_content`. -/
def itemChunks (split : String → List String) (item : CourseItem) : List Chunk :=
  match item.content with
  | none => []
  | some c =>
    if c = "" then []
    else
      mapIdxFrom (fun i doc =>
        { page_content := doc,
          metadata :=
            { source_url := item.url,
              source_title := item.title,
              chunk_id := courseDocId item ++ "_chunk_" ++ Nat.repr i } }) 0 (split c)

/-- `chunk_course_content`: iterates the course collection in order,
appending each document's chunks (skipping empty/absent content). -/
def chunk_course_content (split : String → List String) :
    List CourseItem → List Chunk
  | [] => []
  | item :: rest => itemChunks split item ++ chunk_course_content split rest

/-- Chunks of one thread's question (`if question_text:` guard, then the
inner `for j, doc in enumerate(docs)` loop). -/
def questionChunks (split : String → List String) (i : Nat)
    (t : DiscourseThread) : List Chunk :=
  match t.question with
  | none => []
  | some q =>
    if q = "" then []
    else
      mapIdxFrom (fun j doc =>
        { page_content := doc,
          metadata :=
            { source_url := t.url,
              source_title := some ("Discourse Question: " ++ q.take 80 ++ "..."),
              chunk_id := "discourse_q_" ++ Nat.repr i ++ "_chunk_" ++ Nat.repr j } })
        0 (split q)

/-- Chunks of one answer.  Building the metadata evaluates
`question_text[:80]`; when the thread's `question` key is absent,
`question_text` is Python `None` and slicing it raises `TypeError` — the
`Except.error` case below. -/
def answerChunks (split : String → List String) (i k : Nat)
    (question : Option String) (a : DiscourseAnswer) :
    Except String (List Chunk) :=
  match a.text with
  | none => .ok []
  | some t =>
    if t = "" then .ok []
    else
      mapIdxFromM (fun l doc =>
        match question with
        | none => .error "TypeError: NoneType object is not subscriptable"
        | some q =>
          .ok { page_content := doc,
                metadata :=
                  { source_url := a.url,
                    source_title := some ("Discourse Answer to: " ++ q.take 80 ++ "..."),
                    chunk_id := "discourse_q_" ++ Nat.repr i ++ "_a_" ++ Nat.repr k
                      ++ "_chunk_" ++ Nat.repr l } }) 0 (split t)

/-- The `for k, answer in enumerate(answers)` loop. -/
def answersGo (split : String → List String) (i : Nat)
    (question : Option String) :
    Nat → List DiscourseAnswer → Except String (List Chunk)
  | _, [] => .ok []
  | k, a :: rest => do
    let ac ← answerChunks split i k question a
    let rc ← answersGo split i question (k + 1) rest
    .ok (ac ++ rc)

/-- Chunks of one thread: question chunks, then answer chunks. -/
def threadChunks (split : String → List String) (i : Nat)
    (t : DiscourseThread) : Except String (List Chunk) := do
  let ac ← answersGo split i t.question 0 t.answers
  .ok (questionChunks split i t ++ ac)

/-- The `for i, thread in enumerate(discourse_data)` loop. -/
def discourseGo (split : String → List String) :
    Nat → List DiscourseThread → Except String (List Chunk)
  | _, [] => .ok []
  | i, t :: rest => do
    let tc ← threadChunks split i t
    let rc ← discourseGo split (i + 1) rest
    .ok (tc ++ rc)

/-- `chunk_discourse_content`. -/
def chunk_discourse_content (split : String → List String)
    (threads : List DiscourseThread) : Except String (List Chunk) :=
  discourseGo split 0 threads

/-- The chunking run of `main()` in `chunk_content.py`: course content
first, then discourse content, into one shared list. -/
def run_chunking (split : String → List String) (course : List CourseItem)
    (threads : List DiscourseThread) : Except String (List Chunk) := do
  let dc ← chunk_discourse_content split threads
  .ok (chunk_course_content split course ++ dc)

/-- Chunk-id projection of a chunk list. -/
def chunkIds (cs : List Chunk) : List String :=
  cs.map (fun c => c.metadata.chunk_id)

/-- Splitter behaviour of `create_documents` on text already within the
chunk-size budget: a single chunk holding the whole text. -/
def splitOne : String → List String := fun s => [s]

/-- Number of documents the splitter produces from an optional text field
(0 for an absent or empty field, mirroring the truthiness guards). -/
def docCount (split : String → List String) (s : Option String) : Nat :=
  match s with
  | none => 0
  | some c => if c = "" then 0 else (split c).length

abbrev Vec := List ℚ

/-- Squared Euclidean distance (the `IndexFlatL2` metric). -/
def sqDist (q v : Vec) : ℚ := (List.zipWith (fun a b => (a - b) ^ 2) q v).sum

structure FaissIndex where
  vectors : List Vec
deriving DecidableEq

def FaissIndex.ntotal (idx : FaissIndex) : Nat := idx.vectors.length

/-- Padding distance (FLT_MAX) FAISS reports for absent neighbours. -/
def padDist : ℚ := 340282346638528859811704183484516925440

/-- Comparison of scored hits by distance. -/
def distLE (x y : Int × ℚ) : Prop := x.2 ≤ y.2

instance : DecidableRel distLE :=
  fun x y => inferInstanceAs (Decidable (x.2 ≤ y.2))

instance : IsTotal (Int × ℚ) distLE := ⟨fun x y => le_total x.2 y.2⟩

instance : IsTrans (Int × ℚ) distLE := ⟨fun _ _ _ h h2 => le_trans h h2⟩

/-- `index.search(query_vector, k)` of `faiss.IndexFlatL2`: scores every
stored vector, ranks ascending by distance, truncates to `k`, and pads
with `(-1, FLT_MAX)` when `k` exceeds the number of stored vectors. -/
def searchFlat (idx : FaissIndex) (q : Vec) (k : Nat) : List (Int × ℚ) :=
  let scored := mapIdxFrom (fun p v => ((p : Int), sqDist q v)) 0 idx.vectors
  let sorted := List.insertionSort distLE scored
  sorted.take k ++ List.replicate (k - sorted.length) (-1, padDist)

/-- A side-table value: the chunk without its embedding. -/
structure Entry where
  page_content : String
  metadata : ChunkMeta
deriving DecidableEq

/-- An embedded chunk as read from `embeddings.json`. -/
structure EmbChunk where
  page_content : String
  metadata : ChunkMeta
  embedding : Vec
deriving DecidableEq

/-- `create_faiss_index`: refuses an empty embeddings file, requires all
embeddings to share the dimension of the first one (a ragged matrix makes
`np.array(..., dtype=float32)` raise), stores the vectors in input order
and writes the side-table mapping `str(position)` to the chunk with the
embedding dropped. -/
def create_faiss_index (chunks : List EmbChunk) :
    Except String (FaissIndex × List (String × Entry)) :=
  match chunks with
  | [] => .error "embeddings file is empty: no index created"
  | c0 :: rest =>
    if (c0 :: rest).all (fun c => c.embedding.length = c0.embedding.length) then
      .ok (⟨(c0 :: rest).map (fun c => c.embedding)⟩,
           mapIdxFrom (fun p c => (Nat.repr p, ⟨c.page_content, c.metadata⟩))
             0 (c0 :: rest))
    else .error "ValueError: inconsistent embedding dimensions"

structure SearchResult where
  content : String
  metadata : ChunkMeta
  distance : ℚ
deriving DecidableEq

/-- `index_to_chunk.get(key)` on the JSON side-table. -/
def lookupChunk (table : List (String × Entry)) (key : String) : Option Entry :=
  table.lookup key

/-- Body of the result loop of `search_index`: resolve one returned
position `idx` against the side-table under the key `str(idx)`; a
position with no entry contributes nothing. -/
def resolveHit (index_to_chunk : List (String × Entry)) (h : Int × ℚ) :
    Option SearchResult :=
  match lookupChunk index_to_chunk (Int.repr h.1) with
  | some e => some ⟨e.page_content, e.metadata, h.2⟩
  | none => none

/-- `search_index` of `retriever.py`: embeds the query (the embedding
service is the oracle `embedOf`), searches the loaded index, and resolves
each returned position against the side-table, silently skipping
positions with no entry. -/
def search_index (embedOf : String → Vec) (index : FaissIndex)
    (index_to_chunk : List (String × Entry)) (query : String)
    (k : Nat := 5) : List SearchResult :=
  let query_embedding := embedOf query
  let hits := searchFlat index query_embedding k
  hits.filterMap (resolveHit index_to_chunk)

/-- Total resolution of a scored hit against a side-table (with an inert
fallback used only on hits that cannot occur for a consistent table). -/
def resolveTotal (table : List (String × Entry)) (h : Int × ℚ) : SearchResult :=
  match lookupChunk table (Int.repr h.1) with
  | some e => ⟨e.page_content, e.metadata, h.2⟩
  | none => ⟨"", ⟨none, none, ""⟩, h.2⟩

def BATCH_SIZE : Nat := 200

/-- The `for attempt in range(retries)` loop of `embed_batch`: at each
iteration one POST; on success return the embeddings; on a transient
failure sleep `delay` seconds and retry unless this was the last allowed
attempt, in which case return `None`.  `remaining` counts the loop
iterations left (`retries - attempt`). -/
def embedBatchGo (service : Nat → Option (List Vec)) (delay : Nat) :
    Nat → Nat → Option (List Vec) × Nat × Nat
  | _, 0 => (none, 0, 0)
  | attempt, remaining + 1 =>
    match service attempt with
    | some e => (some e, 1, 0)
    | none =>
      if remaining = 0 then (none, 1, 0)
      else
        let r := embedBatchGo service delay (attempt + 1) remaining
        (r.1, r.2.1 + 1, r.2.2 + delay)

/-- `embed_batch`: a missing `AIPIPE_TOKEN` raises before any network
call; otherwise the retry loop runs with `retries` total attempts and a
fixed `delay` between attempts. -/
def embed_batch (apiKey : Option String) (service : Nat → Option (List Vec))
    (retries : Nat := 3) (delay : Nat := 5) :
    Except String (Option (List Vec) × Nat × Nat) :=
  match apiKey with
  | none => .error "ValueError: AIPIPE_TOKEN environment variable not set."
  | some _ => .ok (embedBatchGo service delay 0 retries)

/-- `process_batch` (embedding outcome already obtained): a failed batch
(`None`) is skipped, contributing nothing; a successful batch pairs each
chunk positionally with its embedding (`embeddings[i]` — the service
returns exactly one embedding per input text). -/
def process_batch (embs : Option (List Vec)) (batch : List Chunk) :
    List EmbChunk :=
  match embs with
  | none => []
  | some es =>
    (batch.zip es).map (fun p => ⟨p.1.page_content, p.1.metadata, p.2⟩)

/-- The batching loop `for i in range(0, len(chunks), BATCH_SIZE)`. -/
def toBatches : List Chunk → List (List Chunk)
  | [] => []
  | c :: rest =>
    ((c :: rest).take BATCH_SIZE) :: toBatches ((c :: rest).drop BATCH_SIZE)
termination_by l => l.length
decreasing_by
  simp [List.length_drop, BATCH_SIZE]
  omega

/-- The embedding projection of a chunk record. -/
def toPlain (c : EmbChunk) : Chunk := ⟨c.page_content, c.metadata⟩

/-- `main()` of `embed.py`, after the gather: batches are processed
independently (`fails bi` says whether batch number `bi` exhausted its
retries; on success the service returns one embedding per text in input
order, i.e. `embedOf` applied to each text) and the per-batch results are
concatenated in original batch order, skipping failed batches. -/
def embed_main (fails : Nat → Bool) (embedOf : String → Vec)
    (chunks : List Chunk) : List EmbChunk :=
  (mapIdxFrom (fun bi batch =>
      process_batch
        (if fails bi then none
         else some (batch.map (fun c => embedOf c.page_content))) batch)
    0 (toBatches chunks)).flatten

structure HTTPException where
  status_code : Nat
  detail : String
deriving DecidableEq

/-- Python `str(e)` for a starlette `HTTPException`. -/
def excStr (e : HTTPException) : String :=
  Nat.repr e.status_code ++ ": " ++ e.detail

structure Link where
  url : String
  text : String
deriving DecidableEq

structure QueryResponse where
  answer : String
  links : List Link
deriving DecidableEq

/-- `generate_final_answer`: missing key is a 500 configuration error,
an LLM transport/status failure is raised as a 502 upstream error. -/
def generate_final_answer (apiKey : Option String) (llm : Option String) :
    Except HTTPException String :=
  match apiKey with
  | none => .error ⟨500, "AIPIPE_TOKEN is not configured on the server."⟩
  | some _ =>
    match llm with
    | some content => .ok content
    | none => .error ⟨502, "Failed to communicate with the LLM provider"⟩

/-- The source-link loop of `answer_question`: keep each chunk's
`source_url` once (truthy and not yet seen), with a 250-character
snippet. -/
def buildLinks : List SearchResult → List String → List Link
  | [], _ => []
  | r :: rest, seen =>
    match r.metadata.source_url with
    | none => buildLinks rest seen
    | some url =>
      if url = "" then buildLinks rest seen
      else if url ∈ seen then buildLinks rest seen
      else ⟨url, r.content.take 250 ++ "..."⟩ :: buildLinks rest (url :: seen)

/-- `answer_question` (retrieval already done: `retrieved` is what
`search_index` returned).  The inner `try:` body raises 404 on an empty
result set and 502 on an LLM failure; the trailing catch-all converts
every exception `e` — including those two — into
`HTTPException(500, str(e))`. -/
def answer_question (retrieved : List SearchResult) (apiKey : Option String)
    (llm : Option String) : Except HTTPException QueryResponse :=
  let body : Except HTTPException QueryResponse :=
    if retrieved.isEmpty then
      .error ⟨404, "Could not find any relevant information for your question."⟩
    else
      match generate_final_answer apiKey llm with
      | .error e => .error e
      | .ok final_answer => .ok ⟨final_answer, buildLinks retrieved []⟩
  match body with
  | .ok r => .ok r
  | .error e => .error ⟨500, excStr e⟩

theorem repr_data (n : Nat) : (Nat.repr n).data = digitsOf n := rfl

theorem toDigitsCore_lt (f n : Nat) (l : List Char) (h : n < 10) :
    Nat.toDigitsCore 10 (f + 1) n l = Nat.digitChar n :: l := by
  have h1 : n / 10 = 0 := Nat.div_eq_of_lt h
  have h2 : n % 10 = n := Nat.mod_eq_of_lt h
  simp [Nat.toDigitsCore, h1, h2]

theorem toDigitsCore_ge (f n : Nat) (l : List Char) (h : 10 ≤ n) :
    Nat.toDigitsCore 10 (f + 1) n l =
      Nat.toDigitsCore 10 f (n / 10) (Nat.digitChar (n % 10) :: l) := by
  have h1 : ¬ n / 10 = 0 := by omega
  simp [Nat.toDigitsCore, h1]

theorem toDigitsCore_fuel (m : Nat) : ∀ f g : Nat, ∀ l : List Char, m < f → m < g →
    Nat.toDigitsCore 10 f m l = Nat.toDigitsCore 10 g m l := by
  induction m using Nat.strong_induction_on with
  | _ m ih =>
    intro f g l hf hg
    obtain ⟨f, rfl⟩ : ∃ k, f = k + 1 := ⟨f - 1, by omega⟩
    obtain ⟨g, rfl⟩ : ∃ k, g = k + 1 := ⟨g - 1, by omega⟩
    by_cases h : m < 10
    · rw [toDigitsCore_lt f m l h, toDigitsCore_lt g m l h]
    · push_neg at h
      rw [toDigitsCore_ge f m l h, toDigitsCore_ge g m l h]
      have hdiv : m / 10 < m := Nat.div_lt_self (by omega) (by omega)
      exact ih (m / 10) hdiv f g _ (by omega) (by omega)

theorem toDigitsCore_append (f : Nat) : ∀ n : Nat, ∀ l : List Char,
    Nat.toDigitsCore 10 f n l = Nat.toDigitsCore 10 f n [] ++ l := by
  induction f with
  | zero => intro n l; simp [Nat.toDigitsCore]
  | succ f ih =>
    intro n l
    by_cases h : n < 10
    · rw [toDigitsCore_lt f n l h, toDigitsCore_lt f n [] h]; rfl
    · push_neg at h
      rw [toDigitsCore_ge f n l h, toDigitsCore_ge f n [] h,
        ih (n / 10) (Nat.digitChar (n % 10) :: l),
        ih (n / 10) [Nat.digitChar (n % 10)], List.append_assoc]
      rfl

theorem digitsOf_step (n : Nat) :
    digitsOf n = if n < 10 then [Nat.digitChar n]
      else digitsOf (n / 10) ++ [Nat.digitChar (n % 10)] := by
  by_cases h : n < 10
  · simp only [h, if_true]
    exact toDigitsCore_lt n n [] h
  · push_neg at h
    simp only [Nat.lt_irrefl, if_neg (by omega : ¬ n < 10)]
    show Nat.toDigitsCore 10 (n + 1) n [] = _
    rw [toDigitsCore_ge n n [] h, toDigitsCore_append,
      toDigitsCore_fuel (n / 10) n (n / 10 + 1) []
        (Nat.div_lt_self (by omega) (by omega)) (Nat.lt_succ_self _)]
    rfl

theorem digitChar_isDigit (n : Nat) (h : n < 10) :
    (Nat.digitChar n).isDigit = true := by
  interval_cases n <;> decide

theorem digitsOf_isDigit (n : Nat) : ∀ c ∈ digitsOf n, c.isDigit = true := by
  induction n using Nat.strong_induction_on with
  | _ n ih =>
    intro c hc
    rw [digitsOf_step] at hc
    by_cases h : n < 10
    · simp [h] at hc
      subst hc
      exact digitChar_isDigit n h
    · simp [h] at hc
      rcases hc with hc | hc
      · exact ih (n / 10) (Nat.div_lt_self (by omega) (by omega)) c hc
      · subst hc
        exact digitChar_isDigit _ (Nat.mod_lt _ (by omega))

theorem parseDigits_append (l : List Char) (c : Char) :
    parseDigits (l ++ [c]) = 10 * parseDigits l + (c.toNat - 48) := by
  simp [parseDigits, List.foldl_append]

theorem digitChar_toNat (n : Nat) (h : n < 10) :
    (Nat.digitChar n).toNat - 48 = n := by
  interval_cases n <;> decide

theorem parseDigits_digitsOf (n : Nat) : parseDigits (digitsOf n) = n := by
  induction n using Nat.strong_induction_on with
  | _ n ih =>
    rw [digitsOf_step]
    by_cases h : n < 10
    · simp [h, parseDigits, digitChar_toNat n h]
    · push_neg at h
      simp only [if_neg (by omega : ¬ n < 10)]
      rw [parseDigits_append,
        ih (n / 10) (Nat.div_lt_self (by omega) (by omega)),
        digitChar_toNat _ (Nat.mod_lt _ (by omega))]
      omega

theorem digitsOf_inj {m n : Nat} (h : digitsOf m = digitsOf n) : m = n := by
  have := congrArg parseDigits h
  rwa [parseDigits_digitsOf, parseDigits_digitsOf] at this

theorem Nat_repr_inj {m n : Nat} (h : Nat.repr m = Nat.repr n) : m = n :=
  digitsOf_inj (congrArg String.data h)

theorem digits_sep_inj {c₁ c₂ : Char} (hc₁ : c₁.isDigit = false)
    (hc₂ : c₂.isDigit = false) :
    ∀ d₁ : List Char, (∀ c ∈ d₁, c.isDigit = true) →
    ∀ d₂ : List Char, (∀ c ∈ d₂, c.isDigit = true) →
    ∀ r₁ r₂ : List Char, d₁ ++ c₁ :: r₁ = d₂ ++ c₂ :: r₂ →
    d₁ = d₂ ∧ c₁ = c₂ ∧ r₁ = r₂ := by
  intro d₁
  induction d₁ with
  | nil =>
    intro _ d₂ hd₂ r₁ r₂ h
    cases d₂ with
    | nil =>
      simp at h
      exact ⟨rfl, h.1, h.2⟩
    | cons e t =>
      simp at h
      exfalso
      have : e.isDigit = true := hd₂ e (by simp)
      rw [← h.1] at this
      rw [hc₁] at this
      exact Bool.false_ne_true this
  | cons e t ih =>
    intro hd₁ d₂ hd₂ r₁ r₂ h
    cases d₂ with
    | nil =>
      simp at h
      exfalso
      have : e.isDigit = true := hd₁ e (by simp)
      rw [h.1] at this
      rw [hc₂] at this
      exact Bool.false_ne_true this
    | cons e' t' =>
      simp only [List.cons_append, List.cons.injEq] at h
      obtain ⟨he, ht⟩ := h
      obtain ⟨h1, h2, h3⟩ := ih (fun c hc => hd₁ c (by simp [hc])) t'
        (fun c hc => hd₂ c (by simp [hc])) r₁ r₂ ht
      exact ⟨by rw [he, h1], h2, h3⟩

theorem sep_digits_inj {c₁ c₂ : Char} (hc₁ : c₁.isDigit = false)
    (hc₂ : c₂.isDigit = false) {d₁ d₂ r₁ r₂ : List Char}
    (hd₁ : ∀ c ∈ d₁, c.isDigit = true) (hd₂ : ∀ c ∈ d₂, c.isDigit = true)
    (h : r₁ ++ c₁ :: d₁ = r₂ ++ c₂ :: d₂) :
    r₁ = r₂ ∧ c₁ = c₂ ∧ d₁ = d₂ := by
  have hrev := congrArg List.reverse h
  have e₁ : (r₁ ++ c₁ :: d₁).reverse = d₁.reverse ++ c₁ :: r₁.reverse := by
    simp
  have e₂ : (r₂ ++ c₂ :: d₂).reverse = d₂.reverse ++ c₂ :: r₂.reverse := by
    simp
  rw [e₁, e₂] at hrev
  obtain ⟨h1, h2, h3⟩ := digits_sep_inj hc₁ hc₂ d₁.reverse
    (fun c hc => hd₁ c (List.mem_reverse.mp hc)) d₂.reverse
    (fun c hc => hd₂ c (List.mem_reverse.mp hc)) r₁.reverse r₂.reverse hrev
  refine ⟨List.reverse_injective h3, h2, List.reverse_injective h1⟩

theorem underscore_not_digit : ('_' : Char).isDigit = false := rfl

/-- Identifiers of the shape `{base}_chunk_{n}` (Python f-string
`f"{base}_chunk_{n}"`) parse uniquely: the digit suffix and the base are
both determined. -/
theorem chunk_id_inj {a b : String} {i j : Nat}
    (h : a ++ "_chunk_" ++ Nat.repr i = b ++ "_chunk_" ++ Nat.repr j) :
    a = b ∧ i = j := by
  have hd := congrArg String.data h
  simp only [String.data_append] at hd
  have ha : a.data ++ ("_chunk_" : String).data ++ (Nat.repr i).data
      = (a.data ++ ['_', 'c', 'h', 'u', 'n', 'k']) ++ '_' :: digitsOf i := by
    rw [repr_data]
    simp [List.append_assoc]
  have hb : b.data ++ ("_chunk_" : String).data ++ (Nat.repr j).data
      = (b.data ++ ['_', 'c', 'h', 'u', 'n', 'k']) ++ '_' :: digitsOf j := by
    rw [repr_data]
    simp [List.append_assoc]
  rw [ha, hb] at hd
  obtain ⟨h1, _, h3⟩ := sep_digits_inj underscore_not_digit underscore_not_digit
    (digitsOf_isDigit i) (digitsOf_isDigit j) hd
  have hab : a.data = b.data := List.append_cancel_right h1
  exact ⟨String.ext hab, digitsOf_inj h3⟩

theorem qBase_inj {i j : Nat}
    (h : "discourse_q_" ++ Nat.repr i = "discourse_q_" ++ Nat.repr j) :
    i = j := by
  have hd := congrArg String.data h
  simp only [String.data_append, repr_data] at hd
  exact digitsOf_inj (List.append_cancel_left hd)

theorem aBase_inj {i j k l : Nat}
    (h : "discourse_q_" ++ Nat.repr i ++ "_a_" ++ Nat.repr k
       = "discourse_q_" ++ Nat.repr j ++ "_a_" ++ Nat.repr l) :
    i = j ∧ k = l := by
  have hd := congrArg String.data h
  simp only [String.data_append, repr_data] at hd
  have hd2 : ("discourse_q_" : String).data ++
        (digitsOf i ++ '_' :: 'a' :: '_' :: digitsOf k)
      = ("discourse_q_" : String).data ++
        (digitsOf j ++ '_' :: 'a' :: '_' :: digitsOf l) := by
    simpa [List.append_assoc] using hd
  have hc := List.append_cancel_left hd2
  obtain ⟨h1, _, h3⟩ := digits_sep_inj underscore_not_digit underscore_not_digit
    (digitsOf i) (digitsOf_isDigit i) (digitsOf j) (digitsOf_isDigit j) _ _ hc
  simp only [List.cons.injEq] at h3
  exact ⟨digitsOf_inj h1, digitsOf_inj h3.2.2⟩

theorem qBase_ne_aBase {i j k : Nat} :
    "discourse_q_" ++ Nat.repr i
      ≠ "discourse_q_" ++ Nat.repr j ++ "_a_" ++ Nat.repr k := by
  intro h
  have hd := congrArg String.data h
  simp only [String.data_append, repr_data] at hd
  have hd2 : ("discourse_q_" : String).data ++ digitsOf i
      = ("discourse_q_" : String).data ++
        (digitsOf j ++ '_' :: 'a' :: '_' :: digitsOf k) := by
    simpa [List.append_assoc] using hd
  have hc := List.append_cancel_left hd2
  have hmem : '_' ∈ digitsOf i := by
    rw [hc]
    simp
  have := digitsOf_isDigit i '_' hmem
  rw [underscore_not_digit] at this
  exact Bool.false_ne_true this

theorem course_ne_qBase {e : String} {i : Nat}
    (hpre : ∀ rest : List Char, e.data ≠ ("discourse_q_" : String).data ++ rest) :
    e ≠ "discourse_q_" ++ Nat.repr i := by
  intro h
  have hd := congrArg String.data h
  simp only [String.data_append, repr_data] at hd
  exact hpre (digitsOf i) hd

theorem course_ne_aBase {e : String} {i k : Nat}
    (hpre : ∀ rest : List Char, e.data ≠ ("discourse_q_" : String).data ++ rest) :
    e ≠ "discourse_q_" ++ Nat.repr i ++ "_a_" ++ Nat.repr k := by
  intro h
  have hd := congrArg String.data h
  simp only [String.data_append, repr_data] at hd
  refine hpre (digitsOf i ++ '_' :: 'a' :: '_' :: digitsOf k) ?_
  simpa [List.append_assoc] using hd

theorem except_bind_ok {ε α β : Type} {m : Except ε α} {f : α → Except ε β} {b : β}
    (h : m >>= f = .ok b) : ∃ a, m = .ok a ∧ f a = .ok b := by
  cases m with
  | error e => simp [Bind.bind, Except.bind] at h
  | ok a => exact ⟨a, rfl, by simpa [Bind.bind, Except.bind] using h⟩

theorem map_mapIdxFrom {α β γ : Type} (f : Nat → α → β) (g : β → γ) (G : Nat → γ)
    (h : ∀ i a, g (f i a) = G i) :
    ∀ (n : Nat) (l : List α),
      (mapIdxFrom f n l).map g = (List.range' n l.length).map G := by
  intro n l
  induction l generalizing n with
  | nil => rfl
  | cons a l ih => simp [mapIdxFrom, List.range'_succ, h, ih]

theorem mapIdxFromM_ok {α β ε : Type} (f : Nat → α → β) :
    ∀ (n : Nat) (l : List α),
      mapIdxFromM (fun i a => (Except.ok (f i a) : Except ε β)) n l
        = .ok (mapIdxFrom f n l) := by
  intro n l
  induction l generalizing n with
  | nil => rfl
  | cons a l ih => simp [mapIdxFromM, mapIdxFrom, ih, Bind.bind, Except.bind]

theorem mapIdxFromM_err {α β ε : Type} (e : ε) (n : Nat) (a : α) (l : List α) :
    mapIdxFromM (fun _ _ => (Except.error e : Except ε β)) n (a :: l) = .error e := by
  simp [mapIdxFromM, Bind.bind, Except.bind]

theorem itemChunks_ids (split : String → List String) (item : CourseItem) :
    chunkIds (itemChunks split item)
      = (List.range' 0 (docCount split item.content)).map
          (fun i => courseDocId item ++ "_chunk_" ++ Nat.repr i) := by
  cases hc : item.content with
  | none => simp [itemChunks, docCount, hc, chunkIds]
  | some c =>
    by_cases he : c = ""
    · simp [itemChunks, docCount, hc, he, chunkIds]
    · simp only [itemChunks, docCount, hc, chunkIds]
      rw [if_neg he, if_neg he]
      refine map_mapIdxFrom _ _ _ ?_ 0 (split c)
      intro i a
      rfl

theorem questionChunks_ids (split : String → List String) (i : Nat)
    (t : DiscourseThread) :
    chunkIds (questionChunks split i t)
      = (List.range' 0 (docCount split t.question)).map
          (fun j => "discourse_q_" ++ Nat.repr i ++ "_chunk_" ++ Nat.repr j) := by
  cases hq : t.question with
  | none => simp [questionChunks, docCount, hq, chunkIds]
  | some q =>
    by_cases he : q = ""
    · simp [questionChunks, docCount, hq, he, chunkIds]
    · simp only [questionChunks, docCount, hq, chunkIds]
      rw [if_neg he, if_neg he]
      refine map_mapIdxFrom _ _ _ ?_ 0 (split q)
      intro j a
      rfl

theorem answerChunks_ok {split : String → List String} {i k : Nat}
    {q : Option String} {a : DiscourseAnswer} {cs : List Chunk}
    (h : answerChunks split i k q a = .ok cs) :
    (chunkIds cs).Nodup ∧
    ∀ x ∈ chunkIds cs, ∃ l : Nat,
      x = "discourse_q_" ++ Nat.repr i ++ "_a_" ++ Nat.repr k
            ++ "_chunk_" ++ Nat.repr l := by
  cases htext : a.text with
  | none =>
    simp [answerChunks, htext] at h
    subst h
    simp [chunkIds]
  | some t =>
    by_cases he : t = ""
    · simp [answerChunks, htext, he] at h
      subst h
      simp [chunkIds]
    · cases hq : q with
      | none =>
        simp only [answerChunks, htext, hq] at h
        rw [if_neg he] at h
        cases hs : split t with
        | nil =>
          rw [hs] at h
          simp [mapIdxFromM] at h
          subst h
          simp [chunkIds]
        | cons d ds =>
          rw [hs, mapIdxFromM_err] at h
          exact absurd h (by simp)
      | some qs =>
        simp only [answerChunks, htext, hq] at h
        rw [if_neg he, mapIdxFromM_ok] at h
        have hcs : cs = mapIdxFrom (fun l doc =>
            ({ page_content := doc,
               metadata :=
                 { source_url := a.url,
                   source_title := some ("Discourse Answer to: " ++ qs.take 80 ++ "..."),
                   chunk_id := "discourse_q_" ++ Nat.repr i ++ "_a_" ++ Nat.repr k
                     ++ "_chunk_" ++ Nat.repr l } } : Chunk)) 0 (split t) := by
          injection h.symm
        have hids : chunkIds cs
            = (List.range' 0 (split t).length).map
                (fun l => "discourse_q_" ++ Nat.repr i ++ "_a_" ++ Nat.repr k
                  ++ "_chunk_" ++ Nat.repr l) := by
          simp only [hcs, chunkIds]
          refine map_mapIdxFrom _ _ _ ?_ 0 (split t)
          intro l a
          rfl
        constructor
        · rw [hids]
          refine List.Nodup.map_on ?_ (List.nodup_range' 0 (split t).length)
          intro x _ y _ hxy
          exact (chunk_id_inj hxy).2
        · intro x hx
          rw [hids] at hx
          obtain ⟨l, _, rfl⟩ := List.mem_map.mp hx
          exact ⟨l, rfl⟩

theorem chunkIds_append (xs ys : List Chunk) :
    chunkIds (xs ++ ys) = chunkIds xs ++ chunkIds ys :=
  List.map_append _ _ _

theorem answersGo_ok {split : String → List String} {i : Nat}
    {q : Option String} :
    ∀ (k : Nat) (answers : List DiscourseAnswer) (ac : List Chunk),
      answersGo split i q k answers = .ok ac →
      (chunkIds ac).Nodup ∧
      ∀ x ∈ chunkIds ac, ∃ kk, k ≤ kk ∧ ∃ l,
        x = "discourse_q_" ++ Nat.repr i ++ "_a_" ++ Nat.repr kk
              ++ "_chunk_" ++ Nat.repr l := by
  intro k answers
  induction answers generalizing k with
  | nil =>
    intro ac h
    simp only [answersGo, Except.ok.injEq] at h
    subst h
    simp [chunkIds]
  | cons a rest ih =>
    intro ac h
    simp only [answersGo] at h
    obtain ⟨ac₁, h₁, h₂⟩ := except_bind_ok h
    obtain ⟨ac₂, h₃, h₄⟩ := except_bind_ok h₂
    have hac : ac₁ ++ ac₂ = ac := by
      simpa using h₄
    obtain ⟨h1n, h1m⟩ := answerChunks_ok h₁
    obtain ⟨h2n, h2m⟩ := ih (k + 1) ac₂ h₃
    subst hac
    rw [chunkIds_append]
    constructor
    · refine List.nodup_append.mpr ⟨h1n, h2n, ?_⟩
      intro x hx₁ hx₂
      obtain ⟨l, hxl⟩ := h1m x hx₁
      obtain ⟨kk, hkk, l', hxl'⟩ := h2m x hx₂
      rw [hxl] at hxl'
      have hbase := (chunk_id_inj hxl').1
      have := (aBase_inj hbase).2
      omega
    · intro x hx
      rcases List.mem_append.mp hx with hx | hx
      · obtain ⟨l, hxl⟩ := h1m x hx
        exact ⟨k, le_refl k, l, hxl⟩
      · obtain ⟨kk, hkk, l, hxl⟩ := h2m x hx
        exact ⟨kk, by omega, l, hxl⟩

theorem threadChunks_ok {split : String → List String} {i : Nat}
    {t : DiscourseThread} {tc : List Chunk}
    (h : threadChunks split i t = .ok tc) :
    (chunkIds tc).Nodup ∧
    ∀ x ∈ chunkIds tc,
      (∃ j, x = "discourse_q_" ++ Nat.repr i ++ "_chunk_" ++ Nat.repr j) ∨
      (∃ kk l, x = "discourse_q_" ++ Nat.repr i ++ "_a_" ++ Nat.repr kk
                 ++ "_chunk_" ++ Nat.repr l) := by
  simp only [threadChunks] at h
  obtain ⟨ac, h₁, h₂⟩ := except_bind_ok h
  have htc : questionChunks split i t ++ ac = tc := by
    simpa using h₂
  obtain ⟨han, ham⟩ := answersGo_ok 0 t.answers ac h₁
  subst htc
  rw [chunkIds_append]
  have hqmem : ∀ x ∈ chunkIds (questionChunks split i t),
      ∃ j, x = "discourse_q_" ++ Nat.repr i ++ "_chunk_" ++ Nat.repr j := by
    intro x hx
    rw [questionChunks_ids] at hx
    obtain ⟨j, _, rfl⟩ := List.mem_map.mp hx
    exact ⟨j, rfl⟩
  constructor
  · refine List.nodup_append.mpr ⟨?_, han, ?_⟩
    · rw [questionChunks_ids]
      refine List.Nodup.map_on ?_ (List.nodup_range' 0 _)
      intro x _ y _ hxy
      exact (chunk_id_inj hxy).2
    · intro x hx₁ hx₂
      obtain ⟨j, hxj⟩ := hqmem x hx₁
      obtain ⟨kk, _, l, hxl⟩ := ham x hx₂
      rw [hxj] at hxl
      exact qBase_ne_aBase (chunk_id_inj hxl).1
  · intro x hx
    rcases List.mem_append.mp hx with hx | hx
    · exact Or.inl (hqmem x hx)
    · obtain ⟨kk, _, l, hxl⟩ := ham x hx
      exact Or.inr ⟨kk, l, hxl⟩

theorem discourseGo_ok {split : String → List String} :
    ∀ (i : Nat) (threads : List DiscourseThread) (dc : List Chunk),
      discourseGo split i threads = .ok dc →
      (chunkIds dc).Nodup ∧
      ∀ x ∈ chunkIds dc, ∃ ii, i ≤ ii ∧
        ((∃ j, x = "discourse_q_" ++ Nat.repr ii ++ "_chunk_" ++ Nat.repr j) ∨
         (∃ kk l, x = "discourse_q_" ++ Nat.repr ii ++ "_a_" ++ Nat.repr kk
                    ++ "_chunk_" ++ Nat.repr l)) := by
  intro i threads
  induction threads generalizing i with
  | nil =>
    intro dc h
    simp only [discourseGo, Except.ok.injEq] at h
    subst h
    simp [chunkIds]
  | cons t rest ih =>
    intro dc h
    simp only [discourseGo] at h
    obtain ⟨tc, h₁, h₂⟩ := except_bind_ok h
    obtain ⟨rc, h₃, h₄⟩ := except_bind_ok h₂
    have hdc : tc ++ rc = dc := by
      simpa using h₄
    obtain ⟨h1n, h1m⟩ := threadChunks_ok h₁
    obtain ⟨h2n, h2m⟩ := ih (i + 1) rc h₃
    subst hdc
    rw [chunkIds_append]
    constructor
    · refine List.nodup_append.mpr ⟨h1n, h2n, ?_⟩
      intro x hx₁ hx₂
      obtain ⟨ii, hii, hx₂'⟩ := h2m x hx₂
      rcases h1m x hx₁ with ⟨j, hxj⟩ | ⟨kk, l, hxl⟩ <;>
        rcases hx₂' with ⟨j', hxj'⟩ | ⟨kk', l', hxl'⟩
      · rw [hxj] at hxj'
        have := qBase_inj (chunk_id_inj hxj').1
        omega
      · rw [hxj] at hxl'
        exact qBase_ne_aBase (chunk_id_inj hxl').1
      · rw [hxl] at hxj'
        exact qBase_ne_aBase (chunk_id_inj hxj').1.symm
      · rw [hxl] at hxl'
        have := (aBase_inj (chunk_id_inj hxl').1).1
        omega
    · intro x hx
      rcases List.mem_append.mp hx with hx | hx
      · exact ⟨i, le_refl i, h1m x hx⟩
      · obtain ⟨ii, hii, hf⟩ := h2m x hx
        exact ⟨ii, by omega, hf⟩

theorem course_chunks_ok (split : String → List String) :
    ∀ items : List CourseItem, (items.map courseDocId).Nodup →
      (chunkIds (chunk_course_content split items)).Nodup ∧
      ∀ x ∈ chunkIds (chunk_course_content split items),
        ∃ it ∈ items, ∃ n, x = courseDocId it ++ "_chunk_" ++ Nat.repr n := by
  intro items
  induction items with
  | nil =>
    intro _
    constructor
    · simp [chunk_course_content, chunkIds]
    · intro x hx
      simp [chunk_course_content, chunkIds] at hx
  | cons item rest ih =>
    intro hids
    rw [List.map_cons, List.nodup_cons] at hids
    obtain ⟨hnotmem, hrest⟩ := hids
    obtain ⟨hrn, hrm⟩ := ih hrest
    have hitemmem : ∀ x ∈ chunkIds (itemChunks split item),
        ∃ n, x = courseDocId item ++ "_chunk_" ++ Nat.repr n := by
      intro x hx
      rw [itemChunks_ids] at hx
      obtain ⟨n, _, rfl⟩ := List.mem_map.mp hx
      exact ⟨n, rfl⟩
    constructor
    · rw [chunk_course_content, chunkIds_append]
      refine List.nodup_append.mpr ⟨?_, hrn, ?_⟩
      · rw [itemChunks_ids]
        refine List.Nodup.map_on ?_ (List.nodup_range' 0 _)
        intro x _ y _ hxy
        exact (chunk_id_inj hxy).2
      · intro x hx₁ hx₂
        obtain ⟨n, hxn⟩ := hitemmem x hx₁
        obtain ⟨it', hit', n', hxn'⟩ := hrm x hx₂
        rw [hxn] at hxn'
        have hbase := (chunk_id_inj hxn').1
        exact hnotmem (hbase ▸ List.mem_map_of_mem courseDocId hit')
    · intro x hx
      rw [chunk_course_content, chunkIds_append] at hx
      rcases List.mem_append.mp hx with hx | hx
      · obtain ⟨n, hxn⟩ := hitemmem x hx
        exact ⟨item, by simp, n, hxn⟩
      · obtain ⟨it', hit', n', hxn'⟩ := hrm x hx
        exact ⟨it', by simp [hit'], n', hxn'⟩

theorem take12_ne {e : String}
    (h : e.data.take 12 ≠ ("discourse_q_" : String).data) :
    ∀ rest : List Char, e.data ≠ ("discourse_q_" : String).data ++ rest := by
  intro rest hr
  apply h
  rw [hr, List.take_append_eq_append_take]
  rfl

/-- C5 (amended): in a chunking run over a course collection whose
document ids (after the `'course'` fallback) are pairwise distinct and
never start with the reserved prefix `discourse_q_`, all chunk ids are
pairwise distinct, and every id follows one of the three documented
formats.  (Without those two hypotheses the claim is false, see the
counterexample.) -/
theorem C5_chunk_ids_unique (split : String → List String)
    (course : List CourseItem) (threads : List DiscourseThread)
    (cs : List Chunk)
    (hids : (course.map courseDocId).Nodup)
    (hpre : ∀ it ∈ course,
      (courseDocId it).data.take 12 ≠ ("discourse_q_" : String).data)
    (hrun : run_chunking split course threads = .ok cs) :
    (chunkIds cs).Nodup ∧
    ∀ x ∈ chunkIds cs,
      (∃ it ∈ course, ∃ n, x = courseDocId it ++ "_chunk_" ++ Nat.repr n) ∨
      (∃ i j, x = "discourse_q_" ++ Nat.repr i ++ "_chunk_" ++ Nat.repr j) ∨
      (∃ i k l, x = "discourse_q_" ++ Nat.repr i ++ "_a_" ++ Nat.repr k
                  ++ "_chunk_" ++ Nat.repr l) := by
  simp only [run_chunking, chunk_discourse_content] at hrun
  obtain ⟨dc, h₁, h₂⟩ := except_bind_ok hrun
  have hcs : chunk_course_content split course ++ dc = cs := by
    simpa using h₂
  obtain ⟨hcn, hcm⟩ := course_chunks_ok split course hids
  obtain ⟨hdn, hdm⟩ := discourseGo_ok 0 threads dc h₁
  subst hcs
  rw [chunkIds_append]
  constructor
  · refine List.nodup_append.mpr ⟨hcn, hdn, ?_⟩
    intro x hx₁ hx₂
    obtain ⟨it, hit, n, hxn⟩ := hcm x hx₁
    obtain ⟨ii, _, hf⟩ := hdm x hx₂
    have hne := take12_ne (hpre it hit)
    rcases hf with ⟨j, hxj⟩ | ⟨kk, l, hxl⟩
    · rw [hxn] at hxj
      exact course_ne_qBase hne (chunk_id_inj hxj).1
    · rw [hxn] at hxl
      exact course_ne_aBase hne (chunk_id_inj hxl).1
  · intro x hx
    rcases List.mem_append.mp hx with hx | hx
    · exact Or.inl (hcm x hx)
    · obtain ⟨ii, _, hf⟩ := hdm x hx
      rcases hf with ⟨j, hxj⟩ | ⟨kk, l, hxl⟩
      · exact Or.inr (Or.inl ⟨ii, j, hxj⟩)
      · exact Or.inr (Or.inr ⟨ii, kk, l, hxl⟩)

set_option maxRecDepth 4096 in
/-- Witness for C5: a concrete two-document course collection and a
one-thread discourse collection satisfying the hypotheses, on which the
run produces pairwise-distinct chunk ids. -/
theorem C5_chunk_ids_unique_witness :
    (([⟨some "tds_1", some "https://c/1", some "Intro", some "doc one"⟩,
       ⟨some "tds_2", none, none, some "doc two"⟩] : List CourseItem).map
         courseDocId).Nodup ∧
    (chunkIds [⟨"doc one", ⟨some "https://c/1", some "Intro", "tds_1_chunk_0"⟩⟩,
               ⟨"doc two", ⟨none, none, "tds_2_chunk_0"⟩⟩,
               ⟨"what is X?",
                ⟨some "https://d/1",
                 some "Discourse Question: what is X?...",
                 "discourse_q_0_chunk_0"⟩⟩,
               ⟨"an answer",
                ⟨some "https://d/1/2",
                 some "Discourse Answer to: what is X?...",
                 "discourse_q_0_a_0_chunk_0"⟩⟩]).Nodup :=
  ⟨by decide,
   (C5_chunk_ids_unique splitOne
      [⟨some "tds_1", some "https://c/1", some "Intro", some "doc one"⟩,
       ⟨some "tds_2", none, none, some "doc two"⟩]
      [⟨some "https://d/1", some "what is X?",
        [⟨some "https://d/1/2", some "an answer"⟩]⟩]
      _ (by decide) (by decide) rfl).1⟩

/-- Counterexample to C5 as frozen: two course documents without an `id`
field both fall back to the document id `course`, so their first chunks
are distinct chunks carrying the same `chunk_id` `course_chunk_0`. -/
theorem C5_counterexample :
    run_chunking splitOne
        [⟨none, none, none, some "hello"⟩, ⟨none, none, none, some "world"⟩] []
      = .ok [⟨"hello", ⟨none, none, "course_chunk_0"⟩⟩,
             ⟨"world", ⟨none, none, "course_chunk_0"⟩⟩] ∧
    (⟨"hello", ⟨none, none, "course_chunk_0"⟩⟩ : Chunk)
      ≠ ⟨"world", ⟨none, none, "course_chunk_0"⟩⟩ ∧
    ¬ (chunkIds [⟨"hello", ⟨none, none, "course_chunk_0"⟩⟩,
                 ⟨"world", ⟨none, none, "course_chunk_0"⟩⟩]).Nodup :=
  ⟨rfl, by decide, by decide⟩

/-- C6: `chunk_discourse_content` does not skip a malformed thread: on a
thread whose `question` field is absent but which still has an answer
with text, building the answer metadata evaluates `question_text[:80]`
on `None` and the run raises `TypeError` instead of omitting the
malformed field. -/
theorem C6_missing_question_raises :
    chunk_discourse_content splitOne
        [⟨some "https://d/t/1", none,
          [⟨some "https://d/t/1/2", some "some answer"⟩]⟩]
      = .error "TypeError: NoneType object is not subscriptable" := rfl

theorem mapIdxFrom_length {α β : Type} {f : Nat → α → β} :
    ∀ (n : Nat) (l : List α), (mapIdxFrom f n l).length = l.length := by
  intro n l
  induction l generalizing n with
  | nil => rfl
  | cons a l ih => simp [mapIdxFrom, ih]

theorem mem_mapIdxFrom {α β : Type} {f : Nat → α → β} :
    ∀ {n : Nat} {l : List α} {b : β}, b ∈ mapIdxFrom f n l →
      ∃ i : Nat, ∃ h : i < l.length, b = f (n + i) (l.get ⟨i, h⟩) := by
  intro n l
  induction l generalizing n with
  | nil => intro b h; simp [mapIdxFrom] at h
  | cons a l ih =>
    intro b h
    rcases List.mem_cons.mp h with hb | hb
    · exact ⟨0, by simp, by simpa using hb⟩
    · obtain ⟨i, hi, hbi⟩ := ih hb
      exact ⟨i + 1, by simpa using hi, by simpa [Nat.add_assoc, Nat.add_comm 1 i] using hbi⟩

theorem map_mapIdxFrom_elem {α β γ : Type} (f : Nat → α → β) (g : β → γ)
    (g' : α → γ) (h : ∀ i a, g (f i a) = g' a) :
    ∀ (n : Nat) (l : List α), (mapIdxFrom f n l).map g = l.map g' := by
  intro n l
  induction l generalizing n with
  | nil => rfl
  | cons a l ih => simp [mapIdxFrom, h, ih]

theorem filterMap_eq_map_of_some {α β : Type} {f : α → Option β} {g : α → β} :
    ∀ l : List α, (∀ x ∈ l, f x = some (g x)) → l.filterMap f = l.map g := by
  intro l
  induction l with
  | nil => intro _; rfl
  | cons a l ih =>
    intro h
    rw [List.filterMap_cons, h a (by simp), List.map_cons,
      ih (fun x hx => h x (by simp [hx]))]

theorem length_filterMap_eq_filter {α β : Type} {f : α → Option β} :
    ∀ l : List α,
      (l.filterMap f).length = (l.filter (fun a => (f a).isSome)).length := by
  intro l
  induction l with
  | nil => rfl
  | cons a l ih =>
    rw [List.filterMap_cons]
    cases hf : f a with
    | none => simpa [List.filter_cons, hf] using ih
    | some b => simpa [List.filter_cons, hf] using ih

theorem neg_one_ne_repr (i : Nat) : ("-1" : String) ≠ Nat.repr i := by
  intro h
  have hd := congrArg String.data h
  rw [repr_data] at hd
  have hmem : '-' ∈ digitsOf i := by
    rw [← hd]
    simp
  have hfalse := digitsOf_isDigit i '-' hmem
  exact absurd hfalse (by decide)

theorem lookup_mapIdxFrom_repr {α β : Type} (g : α → β) :
    ∀ (start p : Nat) (l : List α) (h : p < l.length),
      List.lookup (Nat.repr (start + p))
          (mapIdxFrom (fun i a => (Nat.repr i, g a)) start l)
        = some (g (l.get ⟨p, h⟩)) := by
  intro start p l
  induction l generalizing start p with
  | nil => intro h; simp at h
  | cons a l ih =>
    intro h
    cases p with
    | zero => simp [mapIdxFrom, List.lookup]
    | succ p =>
      have hne : (Nat.repr (start + (p + 1)) == Nat.repr start) = false := by
        refine beq_eq_false_iff_ne.mpr ?_
        intro hr
        have := Nat_repr_inj hr
        omega
      have hlt : p < l.length := by simpa using h
      calc List.lookup (Nat.repr (start + (p + 1)))
              (mapIdxFrom (fun i a => (Nat.repr i, g a)) start (a :: l))
          = List.lookup (Nat.repr (start + (p + 1)))
              (mapIdxFrom (fun i a => (Nat.repr i, g a)) (start + 1) l) := by
            simp [mapIdxFrom, List.lookup, hne]
        _ = some (g (l.get ⟨p, hlt⟩)) := by
            have := ih (start + 1) p hlt
            rwa [show start + 1 + p = start + (p + 1) by omega] at this
        _ = some (g ((a :: l).get ⟨p + 1, h⟩)) := rfl

theorem lookup_mapIdxFrom_neg {α β : Type} (g : α → β) :
    ∀ (start : Nat) (l : List α),
      List.lookup "-1" (mapIdxFrom (fun i a => (Nat.repr i, g a)) start l)
        = none := by
  intro start l
  induction l generalizing start with
  | nil => rfl
  | cons a l ih =>
    have hne : (("-1" : String) == Nat.repr start) = false :=
      beq_eq_false_iff_ne.mpr (neg_one_ne_repr start)
    simp [mapIdxFrom, List.lookup, hne, ih]

theorem create_ok {chunks : List EmbChunk} {idx : FaissIndex}
    {table : List (String × Entry)}
    (h : create_faiss_index chunks = .ok (idx, table)) :
    idx.vectors = chunks.map (fun c => c.embedding) ∧
    table = mapIdxFrom
      (fun p c => (Nat.repr p, ⟨c.page_content, c.metadata⟩)) 0 chunks := by
  cases chunks with
  | nil => simp [create_faiss_index] at h
  | cons c0 rest =>
    rw [create_faiss_index] at h
    by_cases hall :
        (c0 :: rest).all (fun c => c.embedding.length = c0.embedding.length)
    · rw [if_pos hall] at h
      injection h with h2
      have h3 := congrArg Prod.fst h2
      have h4 := congrArg Prod.snd h2
      simp only [Prod.fst, Prod.snd] at h3 h4
      exact ⟨by rw [← h3], h4.symm⟩
    · rw [if_neg hall] at h
      exact absurd h (by simp)

theorem sqDist_cons (a b : ℚ) (q v : Vec) :
    sqDist (a :: q) (b :: v) = (a - b) ^ 2 + sqDist q v := by
  simp [sqDist]

theorem sqDist_nonneg : ∀ q v : Vec, 0 ≤ sqDist q v := by
  intro q
  induction q with
  | nil => intro v; simp [sqDist]
  | cons a q ih =>
    intro v
    cases v with
    | nil => simp [sqDist]
    | cons b v =>
      have h1 : (0:ℚ) ≤ (a - b) ^ 2 := sq_nonneg _
      have h2 := ih v
      rw [sqDist_cons]
      linarith

theorem sqDist_eq_zero_iff :
    ∀ q v : Vec, q.length = v.length → (sqDist q v = 0 ↔ q = v) := by
  intro q
  induction q with
  | nil =>
    intro v hlen
    cases v with
    | nil => simp [sqDist]
    | cons b v => simp at hlen
  | cons a q ih =>
    intro v hlen
    cases v with
    | nil => simp at hlen
    | cons b v =>
      have hl : q.length = v.length := by simpa using hlen
      have h1 : (0:ℚ) ≤ (a - b) ^ 2 := sq_nonneg _
      have h2 := sqDist_nonneg q v
      rw [sqDist_cons]
      constructor
      · intro hz
        have hz1 : (a - b) ^ 2 = 0 := by linarith
        have hz2 : sqDist q v = 0 := by linarith
        have hab : a = b := by
          have := (pow_eq_zero_iff two_ne_zero).mp hz1
          linarith [sub_eq_zero.mp this]
        rw [hab, (ih v hl).mp hz2]
      · intro he
        injection he with he1 he2
        rw [he1, (ih v hl).mpr he2]
        simp

theorem int_repr_ofNat (m : Nat) : Int.repr (m : Int) = Nat.repr m := rfl

theorem resolveTotal_distance (table : List (String × Entry)) (h : Int × ℚ) :
    (resolveTotal table h).distance = h.2 := by
  rw [resolveTotal]
  cases lookupChunk table (Int.repr h.1) <;> rfl

theorem resolveHit_eq_some {table : List (String × Entry)} {h : Int × ℚ}
    {e : Entry} (hl : lookupChunk table (Int.repr h.1) = some e) :
    resolveHit table h = some (resolveTotal table h) := by
  rw [resolveHit, resolveTotal, hl]

theorem resolveHit_eq_none {table : List (String × Entry)} {h : Int × ℚ}
    (hl : lookupChunk table (Int.repr h.1) = none) :
    resolveHit table h = none := by
  rw [resolveHit, hl]

theorem search_index_create_spec {chunks : List EmbChunk} {idx : FaissIndex}
    {table : List (String × Entry)}
    (hcreate : create_faiss_index chunks = .ok (idx, table))
    (embedOf : String → Vec) (query : String) (k : Nat) :
    search_index embedOf idx table query k
      = ((List.insertionSort distLE
            (mapIdxFrom (fun p v => ((p : Int), sqDist (embedOf query) v)) 0
              idx.vectors)).take k).map (resolveTotal table) := by
  obtain ⟨hvec, htab⟩ := create_ok hcreate
  rw [search_index, searchFlat, List.filterMap_append]
  have hpad : ∀ m : Nat,
      (List.replicate m ((-1 : Int), padDist)).filterMap (resolveHit table)
        = [] := by
    intro m
    rw [List.filterMap_eq_nil_iff]
    intro x hx
    have hx1 : x = ((-1 : Int), padDist) := List.eq_of_mem_replicate hx
    subst hx1
    refine resolveHit_eq_none ?_
    rw [show Int.repr ((-1 : Int), padDist).1 = "-1" from rfl, htab, lookupChunk]
    exact lookup_mapIdxFrom_neg _ 0 chunks
  rw [hpad, List.append_nil]
  refine filterMap_eq_map_of_some _ ?_
  intro x hx
  have hxs : x ∈ List.insertionSort distLE
      (mapIdxFrom (fun p v => ((p : Int), sqDist (embedOf query) v)) 0
        idx.vectors) := (List.take_sublist _ _).mem hx
  have hxsc : x ∈ mapIdxFrom (fun p v => ((p : Int), sqDist (embedOf query) v)) 0
      idx.vectors := (List.perm_insertionSort distLE _).mem_iff.mp hxs
  obtain ⟨i, hi, hxi⟩ := mem_mapIdxFrom hxsc
  have hi' : i < chunks.length := by
    rw [hvec] at hi
    simpa using hi
  have hx1 : x.1 = ((i : Nat) : Int) := by
    rw [hxi]
    simp
  have hlook : lookupChunk table (Int.repr x.1)
      = some ⟨(chunks.get ⟨i, hi'⟩).page_content,
              (chunks.get ⟨i, hi'⟩).metadata⟩ := by
    rw [hx1, int_repr_ofNat, htab, lookupChunk]
    have := lookup_mapIdxFrom_repr
      (fun c : EmbChunk => (⟨c.page_content, c.metadata⟩ : Entry)) 0 i chunks hi'
    simpa using this
  exact resolveHit_eq_some hlook

/-- C7: a successful `create_faiss_index` build from N embedded chunks
yields an index holding exactly N vectors and a side-table of exactly N
entries, and every position p in [0, N) resolves under the string key
str(p) to that chunk's content and metadata with the embedding dropped. -/
theorem C7_index_side_table_consistent (chunks : List EmbChunk)
    (idx : FaissIndex) (table : List (String × Entry))
    (h : create_faiss_index chunks = .ok (idx, table)) :
    idx.ntotal = chunks.length ∧
    table.length = chunks.length ∧
    ∀ p : Nat, ∀ hp : p < chunks.length,
      lookupChunk table (Nat.repr p)
        = some ⟨(chunks.get ⟨p, hp⟩).page_content,
                (chunks.get ⟨p, hp⟩).metadata⟩ := by
  obtain ⟨h1, h2⟩ := create_ok h
  refine ⟨?_, ?_, ?_⟩
  · rw [FaissIndex.ntotal, h1, List.length_map]
  · rw [h2, mapIdxFrom_length]
  · intro p hp
    rw [h2, lookupChunk]
    have := lookup_mapIdxFrom_repr
      (fun c : EmbChunk => (⟨c.page_content, c.metadata⟩ : Entry)) 0 p chunks hp
    simpa using this

theorem C7_index_side_table_consistent_witness :
    (⟨[[(1:ℚ), 2], [3, 4]]⟩ : FaissIndex).ntotal = 2 ∧
    ([("0", (⟨"c0", ⟨some "u0", some "t0", "a_chunk_0"⟩⟩ : Entry)),
      ("1", (⟨"c1", ⟨none, none, "a_chunk_1"⟩⟩ : Entry))]).length = 2 ∧
    lookupChunk [("0", ⟨"c0", ⟨some "u0", some "t0", "a_chunk_0"⟩⟩),
                 ("1", ⟨"c1", ⟨none, none, "a_chunk_1"⟩⟩)] (Nat.repr 0)
      = some ⟨"c0", ⟨some "u0", some "t0", "a_chunk_0"⟩⟩ ∧
    lookupChunk [("0", ⟨"c0", ⟨some "u0", some "t0", "a_chunk_0"⟩⟩),
                 ("1", ⟨"c1", ⟨none, none, "a_chunk_1"⟩⟩)] (Nat.repr 1)
      = some ⟨"c1", ⟨none, none, "a_chunk_1"⟩⟩ := by
  have T := C7_index_side_table_consistent
    [⟨"c0", ⟨some "u0", some "t0", "a_chunk_0"⟩, [1, 2]⟩,
     ⟨"c1", ⟨none, none, "a_chunk_1"⟩, [3, 4]⟩] _ _ rfl
  exact ⟨T.1, T.2.1, T.2.2 0 (by decide), T.2.2 1 (by decide)⟩

/-- C1: searching a consistent loaded index holding n vectors with k > n
returns exactly n results — one per stored vector, ranked by distance —
with no error. -/
theorem C1_k_exceeding_corpus (chunks : List EmbChunk) (idx : FaissIndex)
    (table : List (String × Entry)) (embedOf : String → Vec) (query : String)
    (k : Nat)
    (hcreate : create_faiss_index chunks = .ok (idx, table))
    (hk : idx.ntotal < k) :
    (search_index embedOf idx table query k).length = idx.ntotal ∧
    ((search_index embedOf idx table query k).map (fun r => r.distance)).Perm
      (idx.vectors.map (sqDist (embedOf query))) := by
  rw [search_index_create_spec hcreate]
  have hperm := List.perm_insertionSort distLE
    (mapIdxFrom (fun p v => ((p : Int), sqDist (embedOf query) v)) 0 idx.vectors)
  have hlen : (List.insertionSort distLE
      (mapIdxFrom (fun p v => ((p : Int), sqDist (embedOf query) v)) 0
        idx.vectors)).length = idx.vectors.length := by
    rw [hperm.length_eq, mapIdxFrom_length]
  have htake : (List.insertionSort distLE
      (mapIdxFrom (fun p v => ((p : Int), sqDist (embedOf query) v)) 0
        idx.vectors)).take k
      = List.insertionSort distLE
          (mapIdxFrom (fun p v => ((p : Int), sqDist (embedOf query) v)) 0
            idx.vectors) := by
    refine List.take_of_length_le ?_
    rw [hlen]
    exact le_of_lt hk
  rw [htake]
  constructor
  · rw [List.length_map, hlen]
    rfl
  · have hmapdist : ((List.insertionSort distLE
        (mapIdxFrom (fun p v => ((p : Int), sqDist (embedOf query) v)) 0
          idx.vectors)).map (resolveTotal table)).map (fun r => r.distance)
        = (List.insertionSort distLE
            (mapIdxFrom (fun p v => ((p : Int), sqDist (embedOf query) v)) 0
              idx.vectors)).map (fun h => h.2) := by
      rw [List.map_map]
      simp [Function.comp, resolveTotal_distance]
    rw [hmapdist]
    have h2 : (mapIdxFrom (fun p v => ((p : Int), sqDist (embedOf query) v)) 0
        idx.vectors).map (fun h => h.2)
        = idx.vectors.map (sqDist (embedOf query)) := by
      refine map_mapIdxFrom_elem _ _ _ ?_ 0 _
      intro i a
      rfl
    exact h2 ▸ hperm.map (fun h => h.2)

theorem C1_k_exceeding_corpus_witness :
    ((⟨[[(0:ℚ)], [1], [2]]⟩ : FaissIndex).ntotal < 5) ∧
    (search_index (fun _ => [(0:ℚ)]) ⟨[[(0:ℚ)], [1], [2]]⟩
        [("0", ⟨"c0", ⟨some "u0", none, "d_chunk_0"⟩⟩),
         ("1", ⟨"c1", ⟨none, none, "d_chunk_1"⟩⟩),
         ("2", ⟨"c2", ⟨none, none, "d_chunk_2"⟩⟩)]
        "define regression" 5).length = 3 :=
  ⟨by decide,
   (C1_k_exceeding_corpus
      [⟨"c0", ⟨some "u0", none, "d_chunk_0"⟩, [0]⟩,
       ⟨"c1", ⟨none, none, "d_chunk_1"⟩, [1]⟩,
       ⟨"c2", ⟨none, none, "d_chunk_2"⟩, [2]⟩]
      _ _ (fun _ => [(0:ℚ)]) "define regression" 5 rfl (by decide)).1⟩

/-- C2: against a consistent loaded index, results are sorted by
non-decreasing distance, and every result's distance is the squared
Euclidean distance between the query vector and the vector at the matched
position — hence non-negative, and zero exactly on an exact match (for
vectors of matching dimension). -/
theorem C2_sorted_squared_euclidean (chunks : List EmbChunk)
    (idx : FaissIndex) (table : List (String × Entry))
    (embedOf : String → Vec) (query : String) (k : Nat)
    (hcreate : create_faiss_index chunks = .ok (idx, table)) :
    List.Sorted (· ≤ ·)
      ((search_index embedOf idx table query k).map (fun r => r.distance)) ∧
    ∀ r ∈ search_index embedOf idx table query k,
      ∃ p : Nat, ∃ hp : p < idx.vectors.length,
        lookupChunk table (Nat.repr p) = some ⟨r.content, r.metadata⟩ ∧
        r.distance = sqDist (embedOf query) (idx.vectors.get ⟨p, hp⟩) ∧
        0 ≤ r.distance ∧
        ((embedOf query).length = (idx.vectors.get ⟨p, hp⟩).length →
          (r.distance = 0 ↔ embedOf query = idx.vectors.get ⟨p, hp⟩)) := by
  obtain ⟨hvec, htab⟩ := create_ok hcreate
  rw [search_index_create_spec hcreate]
  have hsort : List.Sorted distLE (List.insertionSort distLE
      (mapIdxFrom (fun p v => ((p : Int), sqDist (embedOf query) v)) 0
        idx.vectors)) := List.sorted_insertionSort distLE _
  have hsortTake : List.Sorted distLE ((List.insertionSort distLE
      (mapIdxFrom (fun p v => ((p : Int), sqDist (embedOf query) v)) 0
        idx.vectors)).take k) :=
    List.Pairwise.sublist (List.take_sublist k _) hsort
  constructor
  · have hmapdist : (((List.insertionSort distLE
        (mapIdxFrom (fun p v => ((p : Int), sqDist (embedOf query) v)) 0
          idx.vectors)).take k).map (resolveTotal table)).map
          (fun r => r.distance)
        = ((List.insertionSort distLE
            (mapIdxFrom (fun p v => ((p : Int), sqDist (embedOf query) v)) 0
              idx.vectors)).take k).map (fun h => h.2) := by
      rw [List.map_map]
      have hfun : ((fun r : SearchResult => r.distance) ∘ resolveTotal table)
          = fun h : Int × ℚ => h.2 :=
        funext (fun h => resolveTotal_distance table h)
      rw [hfun]
    rw [hmapdist]
    exact List.pairwise_map.mpr hsortTake
  · intro r hr
    obtain ⟨x, hxmem, rfl⟩ := List.mem_map.mp hr
    have hxs : x ∈ List.insertionSort distLE
        (mapIdxFrom (fun p v => ((p : Int), sqDist (embedOf query) v)) 0
          idx.vectors) := (List.take_sublist _ _).mem hxmem
    have hxsc : x ∈ mapIdxFrom
        (fun p v => ((p : Int), sqDist (embedOf query) v)) 0 idx.vectors :=
      (List.perm_insertionSort distLE _).mem_iff.mp hxs
    obtain ⟨i, hi, hxi⟩ := mem_mapIdxFrom hxsc
    have hi' : i < chunks.length := by
      rw [hvec] at hi
      simpa using hi
    have hx1 : x.1 = ((i : Nat) : Int) := by
      rw [hxi]
      simp
    have hx2 : x.2 = sqDist (embedOf query) (idx.vectors.get ⟨i, hi⟩) := by
      rw [hxi]
    have hlook : lookupChunk table (Int.repr x.1)
        = some ⟨(chunks.get ⟨i, hi'⟩).page_content,
                (chunks.get ⟨i, hi'⟩).metadata⟩ := by
      rw [hx1, int_repr_ofNat, htab, lookupChunk]
      have := lookup_mapIdxFrom_repr
        (fun c : EmbChunk => (⟨c.page_content, c.metadata⟩ : Entry)) 0 i chunks hi'
      simpa using this
    have hres : resolveTotal table x
        = ⟨(chunks.get ⟨i, hi'⟩).page_content,
           (chunks.get ⟨i, hi'⟩).metadata, x.2⟩ := by
      rw [resolveTotal, hlook]
    refine ⟨i, hi, ?_, ?_, ?_, ?_⟩
    · rw [hres]
      rw [← int_repr_ofNat, ← hx1]
      exact hlook
    · rw [hres]
      exact hx2
    · rw [resolveTotal_distance, hx2]
      exact sqDist_nonneg _ _
    · intro hlen
      rw [resolveTotal_distance, hx2]
      exact sqDist_eq_zero_iff _ _ hlen

theorem C2_sorted_squared_euclidean_witness :
    create_faiss_index
        [⟨"c0", ⟨some "u0", none, "d_chunk_0"⟩, [0]⟩,
         ⟨"c1", ⟨none, none, "d_chunk_1"⟩, [1]⟩,
         ⟨"c2", ⟨none, none, "d_chunk_2"⟩, [2]⟩]
      = .ok (⟨[[(0:ℚ)], [1], [2]]⟩,
             [("0", ⟨"c0", ⟨some "u0", none, "d_chunk_0"⟩⟩),
              ("1", ⟨"c1", ⟨none, none, "d_chunk_1"⟩⟩),
              ("2", ⟨"c2", ⟨none, none, "d_chunk_2"⟩⟩)]) ∧
    List.Sorted (· ≤ ·)
      ((search_index (fun _ => [(0:ℚ)]) ⟨[[(0:ℚ)], [1], [2]]⟩
          [("0", ⟨"c0", ⟨some "u0", none, "d_chunk_0"⟩⟩),
           ("1", ⟨"c1", ⟨none, none, "d_chunk_1"⟩⟩),
           ("2", ⟨"c2", ⟨none, none, "d_chunk_2"⟩⟩)]
          "define regression" 5).map (fun r => r.distance)) :=
  ⟨rfl,
   (C2_sorted_squared_euclidean
      [⟨"c0", ⟨some "u0", none, "d_chunk_0"⟩, [0]⟩,
       ⟨"c1", ⟨none, none, "d_chunk_1"⟩, [1]⟩,
       ⟨"c2", ⟨none, none, "d_chunk_2"⟩, [2]⟩]
      _ _ (fun _ => [(0:ℚ)]) "define regression" 5 rfl).1⟩

/-- C8: for every search, each returned position is resolved against the
side-table: every produced result corresponds to a hit whose position has
a side-table entry with that content and metadata, and positions with no
entry are dropped without affecting the remaining results (the result
count equals the number of resolvable hits). -/
theorem C8_missing_positions_dropped (embedOf : String → Vec)
    (idx : FaissIndex) (table : List (String × Entry)) (query : String)
    (k : Nat) :
    (∀ r ∈ search_index embedOf idx table query k,
      ∃ h ∈ searchFlat idx (embedOf query) k,
        lookupChunk table (Int.repr h.1) = some ⟨r.content, r.metadata⟩ ∧
        r.distance = h.2) ∧
    (search_index embedOf idx table query k).length
      = ((searchFlat idx (embedOf query) k).filter
          (fun h => (lookupChunk table (Int.repr h.1)).isSome)).length := by
  constructor
  · intro r hr
    rw [search_index] at hr
    obtain ⟨x, hx, hres⟩ := List.mem_filterMap.mp hr
    refine ⟨x, hx, ?_⟩
    rw [resolveHit] at hres
    cases hl : lookupChunk table (Int.repr x.1) with
    | none =>
      rw [hl] at hres
      exact absurd hres (by simp)
    | some e =>
      rw [hl] at hres
      have hre : r = ⟨e.page_content, e.metadata, x.2⟩ := by
        injection hres with h
        exact h.symm
      rw [hre]
      exact ⟨rfl, rfl⟩
  · rw [search_index, length_filterMap_eq_filter]
    have hiff : ∀ h : Int × ℚ,
        (resolveHit table h).isSome
          = (lookupChunk table (Int.repr h.1)).isSome := by
      intro h
      rw [resolveHit]
      cases lookupChunk table (Int.repr h.1) <;> rfl
    simp only [hiff]

theorem embedBatchGo_succeeds (service : Nat → Option (List Vec))
    (v : List Vec) (f delay : Nat)
    (hfail : ∀ a, a < f → service a = none) (hsucc : service f = some v) :
    ∀ remaining attempt, attempt ≤ f → f < attempt + remaining →
      embedBatchGo service delay attempt remaining
        = (some v, f - attempt + 1, (f - attempt) * delay) := by
  intro remaining
  induction remaining with
  | zero => intro attempt h1 h2; omega
  | succ remaining ih =>
    intro attempt h1 h2
    by_cases haf : attempt = f
    · subst haf
      rw [embedBatchGo, hsucc]
      simp
    · have hlt : attempt < f := by omega
      rw [embedBatchGo, hfail attempt hlt]
      have hrem : ¬ remaining = 0 := by omega
      rw [if_neg hrem]
      rw [ih (attempt + 1) (by omega) (by omega)]
      have he : f - attempt = (f - (attempt + 1)) + 1 := by omega
      simp only []
      rw [he, Nat.succ_mul]

theorem embedBatchGo_exhausts (service : Nat → Option (List Vec))
    (delay : Nat) :
    ∀ remaining attempt, 1 ≤ remaining →
      (∀ a, a < attempt + remaining → service a = none) →
      embedBatchGo service delay attempt remaining
        = (none, remaining, (remaining - 1) * delay) := by
  intro remaining
  induction remaining with
  | zero => intro attempt h1 _; omega
  | succ remaining ih =>
    intro attempt _ hfail
    rw [embedBatchGo, hfail attempt (by omega)]
    by_cases hrem : remaining = 0
    · subst hrem
      simp
    · rw [if_neg hrem]
      rw [ih (attempt + 1) (by omega) (fun a ha => hfail a (by omega))]
      simp only []
      have he : remaining + 1 - 1 = (remaining - 1) + 1 := by omega
      rw [he, Nat.succ_mul]

/-- C3: with the API key set, `embed_batch` retries the same batch with a
fixed delay between attempts.  If the service fails on the first `f`
attempts and then succeeds, and `f` is within the attempt budget, the
call returns the service's embeddings (in input order, by the API
contract baked into the oracle) after exactly `f` retries, i.e. `f + 1`
attempts and `f` sleeps of `delay` seconds; if the budget `retries` is
exhausted first, it returns `None` after exactly `retries` attempts. -/
theorem C3_retry_with_fixed_delay (service : Nat → Option (List Vec))
    (v : List Vec) (f retries delay : Nat) (key : String)
    (hfail : ∀ a, a < f → service a = none) (hsucc : service f = some v) :
    (f < retries →
      embed_batch (some key) service retries delay
        = .ok (some v, f + 1, f * delay)) ∧
    (retries ≤ f → 1 ≤ retries →
      embed_batch (some key) service retries delay
        = .ok (none, retries, (retries - 1) * delay)) := by
  constructor
  · intro hf
    rw [embed_batch]
    rw [embedBatchGo_succeeds service v f delay hfail hsucc retries 0
      (by omega) (by omega)]
    simp
  · intro hf hr
    rw [embed_batch]
    rw [embedBatchGo_exhausts service delay retries 0 hr
      (fun a ha => hfail a (by omega))]

/-- Witness for C3: the spec's stub scenario — a service that fails
exactly twice and then succeeds, with the default budget of 3 attempts
and 5-second delay: both embeddings come back in order after exactly 2
retries (3 attempts, 10 seconds slept). -/
theorem C3_retry_with_fixed_delay_witness :
    embed_batch (some "token")
        (fun a => if a < 2 then none else some [[(1:ℚ)], [2]]) 3 5
      = .ok (some [[(1:ℚ)], [2]], 3, 10) :=
  (C3_retry_with_fixed_delay
      (fun a => if a < 2 then none else some [[(1:ℚ)], [2]])
      [[(1:ℚ)], [2]] 2 3 5 "token"
      (fun a ha => by simp [ha]) (by simp)).1 (by omega)

theorem toBatches_flatten (l : List Chunk) : (toBatches l).flatten = l := by
  have H : ∀ n : Nat, ∀ l : List Chunk, l.length ≤ n →
      (toBatches l).flatten = l := by
    intro n
    induction n with
    | zero =>
      intro l hl
      have : l = [] := List.eq_nil_of_length_eq_zero (by omega)
      subst this
      simp [toBatches]
    | succ n ih =>
      intro l hl
      cases l with
      | nil => simp [toBatches]
      | cons c rest =>
        rw [toBatches, List.flatten_cons,
          ih ((c :: rest).drop BATCH_SIZE)
            (by simp [List.length_drop, BATCH_SIZE] at hl ⊢; omega),
          List.take_append_drop]
  exact H l.length l (le_refl _)

theorem process_batch_map_toPlain (es : List Vec) (batch : List Chunk)
    (hlen : batch.length ≤ es.length) :
    (process_batch (some es) batch).map toPlain = batch := by
  rw [process_batch, List.map_map]
  have hfun : (toPlain ∘ fun p : Chunk × Vec =>
      (⟨p.1.page_content, p.1.metadata, p.2⟩ : EmbChunk)) = Prod.fst :=
    funext (fun p => rfl)
  rw [hfun]
  exact List.map_fst_zip batch es hlen

/-- C10: a ChunkRecord is not altered by the Embedding Client: for every
batch and service response, the content and metadata of each chunk after
`process_batch` equal their values before it (the record only gains its
`embedding`), and a failed batch contributes no altered record at all. -/
theorem C10_process_batch_immutable (es : List Vec) (batch : List Chunk)
    (hlen : es.length = batch.length) :
    (process_batch (some es) batch).map toPlain = batch ∧
    process_batch none batch = [] :=
  ⟨process_batch_map_toPlain es batch (le_of_eq hlen.symm), rfl⟩

theorem C10_process_batch_immutable_witness :
    ([[(1:ℚ)], [2]] : List Vec).length
        = ([⟨"a", ⟨none, none, "x_chunk_0"⟩⟩,
            ⟨"b", ⟨none, none, "x_chunk_1"⟩⟩] : List Chunk).length ∧
    (process_batch (some [[(1:ℚ)], [2]])
        [⟨"a", ⟨none, none, "x_chunk_0"⟩⟩,
         ⟨"b", ⟨none, none, "x_chunk_1"⟩⟩]).map toPlain
      = [⟨"a", ⟨none, none, "x_chunk_0"⟩⟩,
         ⟨"b", ⟨none, none, "x_chunk_1"⟩⟩] :=
  ⟨rfl,
   (C10_process_batch_immutable [[(1:ℚ)], [2]]
      [⟨"a", ⟨none, none, "x_chunk_0"⟩⟩,
       ⟨"b", ⟨none, none, "x_chunk_1"⟩⟩] rfl).1⟩

theorem map_mapIdxFrom_fun {α β γ : Type} (f : Nat → α → β) (g : β → γ) :
    ∀ (n : Nat) (l : List α),
      (mapIdxFrom f n l).map g = mapIdxFrom (fun i a => g (f i a)) n l := by
  intro n l
  induction l generalizing n with
  | nil => rfl
  | cons a l ih => simp [mapIdxFrom, ih]

theorem mapIdxFrom_congr {α β : Type} {f₁ f₂ : Nat → α → β}
    (h : ∀ i a, f₁ i a = f₂ i a) :
    ∀ (n : Nat) (l : List α), mapIdxFrom f₁ n l = mapIdxFrom f₂ n l := by
  intro n l
  induction l generalizing n with
  | nil => rfl
  | cons a l ih => simp [mapIdxFrom, h, ih]

theorem mapIdxFrom_id {α : Type} :
    ∀ (n : Nat) (l : List α), mapIdxFrom (fun _ a => a) n l = l := by
  intro n l
  induction l generalizing n with
  | nil => rfl
  | cons a l ih => simp [mapIdxFrom, ih]

theorem flatten_skip_sublist (fails : Nat → Bool) :
    ∀ (n : Nat) (B : List (List Chunk)),
      ((mapIdxFrom (fun bi b => if fails bi then [] else b) n B).flatten).Sublist
        B.flatten := by
  intro n B
  induction B generalizing n with
  | nil => simp [mapIdxFrom]
  | cons b B ih =>
    simp only [mapIdxFrom, List.flatten_cons]
    by_cases hf : fails n
    · rw [if_pos hf]
      rw [List.nil_append]
      exact (ih (n + 1)).trans (List.sublist_append_right b B.flatten)
    · rw [if_neg hf]
      exact (ih (n + 1)).append_left b

/-- C4: a batch that exhausted its retries is excluded without aborting
the run: the surviving output is exactly the concatenation, in original
batch order, of the successful batches' chunks; it is an order-preserving
subsequence of the input corpus; every output chunk carries the embedding
of its own text; and when no batch fails the output covers the whole
corpus. -/
theorem C4_failed_batch_excluded (fails : Nat → Bool) (embedOf : String → Vec)
    (chunks : List Chunk) :
    ((embed_main fails embedOf chunks).map toPlain
      = (mapIdxFrom (fun bi batch => if fails bi then [] else batch) 0
          (toBatches chunks)).flatten) ∧
    (∀ e ∈ embed_main fails embedOf chunks,
      e.embedding = embedOf e.page_content) ∧
    ((embed_main fails embedOf chunks).map toPlain).Sublist chunks ∧
    ((∀ bi, fails bi = false) →
      (embed_main fails embedOf chunks).map toPlain = chunks) := by
  have hpart1 : (embed_main fails embedOf chunks).map toPlain
      = (mapIdxFrom (fun bi batch => if fails bi then [] else batch) 0
          (toBatches chunks)).flatten := by
    rw [embed_main, List.map_flatten, map_mapIdxFrom_fun]
    congr 1
    refine mapIdxFrom_congr ?_ 0 (toBatches chunks)
    intro bi batch
    by_cases hf : fails bi
    · rw [if_pos hf, if_pos hf]
      rfl
    · rw [if_neg hf, if_neg hf]
      exact process_batch_map_toPlain _ batch (by simp)
  refine ⟨hpart1, ?_, ?_, ?_⟩
  · intro e he
    rw [embed_main] at he
    obtain ⟨sub, hsub, hesub⟩ := List.mem_flatten.mp he
    obtain ⟨bi, hbi, hsubeq⟩ := mem_mapIdxFrom hsub
    subst hsubeq
    by_cases hf : fails (0 + bi)
    · rw [if_pos hf] at hesub
      simp [process_batch] at hesub
    · rw [if_neg hf] at hesub
      rw [process_batch] at hesub
      have hz := List.zip_map' id (fun c : Chunk => embedOf c.page_content)
        ((toBatches chunks).get ⟨bi, hbi⟩)
      simp only [List.map_id] at hz
      rw [hz, List.map_map] at hesub
      obtain ⟨c, _, rfl⟩ := List.mem_map.mp hesub
      rfl
  · rw [hpart1]
    have := flatten_skip_sublist fails 0 (toBatches chunks)
    rwa [toBatches_flatten] at this
  · intro hall
    rw [hpart1]
    have hcong : mapIdxFrom (fun bi batch =>
        if fails bi then ([] : List Chunk) else batch) 0 (toBatches chunks)
        = mapIdxFrom (fun _ batch => batch) 0 (toBatches chunks) := by
      refine mapIdxFrom_congr ?_ 0 (toBatches chunks)
      intro i a
      rw [hall i]
      rfl
    rw [hcong, mapIdxFrom_id, toBatches_flatten]

/-- C9: the two query-time failure kinds do NOT surface with their
distinguishing statuses: the catch-all `except Exception` re-raises the
endpoint's own `HTTPException(404)` (empty retrieval) and the upstream
`HTTPException(502)` (LLM failure) as status-500 errors whose detail
merely embeds the original status text. -/
theorem C9_errors_collapse_to_500 :
    (∀ (apiKey : Option String) (llm : Option String),
      answer_question [] apiKey llm
        = .error ⟨500,
            "404: Could not find any relevant information for your question."⟩) ∧
    (∀ (r : SearchResult) (rest : List SearchResult) (key : String),
      answer_question (r :: rest) (some key) none
        = .error ⟨500, "502: Failed to communicate with the LLM provider"⟩) :=
  ⟨fun _ _ => rfl, fun _ _ _ => rfl⟩
